import Mathlib

/-!
Verification of the finance-tracker categorization and budget-reconciliation
engines (`finances_dashboard/views/home.py` and
`finances_dashboard/views/budget.py`), shallowly embedded in Lean 4.

Modelling conventions:
* a pandas `DataFrame` of transactions is a list of rows; amounts are exact
  rationals (the code's float arithmetic is modelled exactly);
* a Python `dict` (the category map, JSON objects) is an association list in
  insertion order, keys unique in every state the program constructs;
* the persisted snapshot file is `Option (Option ...)`: `none` = no file on
  disk, `some none` = file exists but fails to parse (`json.JSONDecodeError`),
  `some (some m)` = file exists and parses to `m` (JSON round-trips a
  string-to-string-list object exactly, so the snapshot is the map itself);
* `df.copy()` plus column assignment is modelled by returning a new list of
  rows, the untouched columns carried through unchanged.
-/

namespace FinTrack

/-- A category map: category name to its stored keyword list, in insertion
order, exactly as `CategoryManager.categories` holds it. -/
abbrev CategoryMap := List (String × List String)

/-- ASCII lower-casing of one character, as Python's `str.lower` acts on the
ASCII letters the bank data uses. -/
def lowerChar (c : Char) : Char :=
  if 65 ≤ c.toNat ∧ c.toNat ≤ 90 then Char.ofNat (c.toNat + 32) else c

/-- `str.lower()` on a whole string, modelled character-wise. -/
def lowerStr (s : String) : String := ⟨s.data.map lowerChar⟩

/-- `hay` contains `needle` as a contiguous substring.  This is what the
escaped-alternation regex `re.escape(k)` tested with `str.contains` means for
one keyword `k`: the empty keyword matches everything, as the empty regex
alternative does. -/
def strContains (hay needle : String) : Bool :=
  hay.data.tails.any (fun t => needle.data.isPrefixOf t)

/-- The test `df["Description"].str.lower().str.contains(pattern)` applied to
one description, where `pattern` is the `|`-join of the escaped keywords: some
keyword occurs verbatim in the lower-cased description.  Note the code lowers
the description only; keywords are used exactly as stored. -/
def keywordsMatch (keywords : List String) (description : String) : Bool :=
  keywords.any (fun k => strContains (lowerStr description) k)

/-- The category the loop of `categorize_transactions` leaves on a row with
this description: start at `"Uncategorized"`, and for each (category,
keywords) item in map order, skipping `"Uncategorized"` and empty keyword
lists, overwrite with the category whenever its pattern matches. -/
def assignCategory (cats : CategoryMap) (description : String) : String :=
  cats.foldl
    (fun acc ckw =>
      if ckw.1 = "Uncategorized" ∨ ckw.2 = [] then acc
      else if keywordsMatch ckw.2 description then ckw.1 else acc)
    "Uncategorized"

/-- One transaction row as `categorize_transactions` sees it: the
`Description` column, the `Category` column, and all remaining columns
(`Details`, `Posting Date`, `Amount`, ...) bundled as `rest`. -/
structure Row (α : Type) where
  description : String
  category : String
  rest : α
  deriving Repr, DecidableEq

/-- `CategoryManager.categorize_transactions`: copy the table, set `Category`
to `"Uncategorized"`, then run the per-category masked overwrites; per row
this is `assignCategory` on its description, all other columns unchanged. -/
def categorizeTransactions {α : Type} (cats : CategoryMap) (rows : List (Row α)) :
    List (Row α) :=
  rows.map (fun r => { r with category := assignCategory cats r.description })

/-- The items of the map that actually overwrite this description's category:
non-default, non-empty keyword list, pattern matches. -/
def matchingItems (cats : CategoryMap) (description : String) : CategoryMap :=
  cats.filter
    (fun ckw => ckw.1 ≠ "Uncategorized" ∧ ckw.2 ≠ [] ∧ keywordsMatch ckw.2 description)

/-- Python's `str.strip()`: drop leading and trailing whitespace. -/
def isWhite (c : Char) : Bool := c = ' ' ∨ c = '\t' ∨ c = '\n' ∨ c = '\r'

/-- `str.strip()` on a string, via its character list. -/
def trimStr (s : String) : String :=
  ⟨((s.data.dropWhile isWhite).reverse.dropWhile isWhite).reverse⟩

/-- `name in self.categories`: key membership in the dict. -/
def hasKey (m : CategoryMap) (k : String) : Bool := m.any (fun e => e.1 = k)

/-- The map `CategoryManager.__init__` starts from. -/
def defaultMap : CategoryMap := [("Uncategorized", [])]

/-- `CategoryManager` state: the in-memory dict plus the persisted
`categories.json`.  The file is `none` when absent, `some none` when present
but unparsable (`json.JSONDecodeError`), `some (some m)` when it parses; JSON
round-trips a string-keyed object of string lists exactly, so a parsed
snapshot is just a `CategoryMap`. -/
structure CMState where
  categories : CategoryMap
  file : Option (Option CategoryMap)
  deriving Repr, DecidableEq

/-- `CategoryManager.__init__`: in-memory map is the default; whatever file is
on disk is untouched. -/
def cmInit (file : Option (Option CategoryMap)) : CMState := ⟨defaultMap, file⟩

/-- `CategoryManager.load`: if the file exists and parses, take its contents
verbatim; if it exists but fails to parse, fall back to the default map; if it
does not exist, keep the current in-memory map. -/
def cmLoad (s : CMState) : CMState :=
  match s.file with
  | none => s
  | some none => { s with categories := defaultMap }
  | some (some snap) => { s with categories := snap }

/-- `CategoryManager.save`: write the whole in-memory map as the snapshot. -/
def cmSave (s : CMState) : CMState := { s with file := some (some s.categories) }

/-- `CategoryManager.add_category`: trim the name; reject empty or already
present; otherwise insert with an empty keyword list (at the end, as dict
insertion does) and persist. -/
def addCategory (s : CMState) (name : String) : CMState × Bool :=
  let n := trimStr name
  if n = "" ∨ hasKey s.categories n then (s, false)
  else (cmSave { s with categories := s.categories ++ [(n, [])] }, true)

/-- `CategoryManager.add_keyword`: trim the keyword; reject unknown category
or empty keyword; reject a keyword already in the category's stored list
(exact, case-sensitive `in`); otherwise append to that category's list and
persist. -/
def addKeyword (s : CMState) (category keyword : String) : CMState × Bool :=
  let kw := trimStr keyword
  if ¬ hasKey s.categories category = true ∨ kw = "" then (s, false)
  else if kw ∈ (s.categories.lookup category).getD [] then (s, false)
  else
    (cmSave { s with categories :=
        s.categories.map (fun e => if e.1 = category then (e.1, e.2 ++ [kw]) else e) },
      true)

/-- States reachable through the manager's lifecycle: construction over an
arbitrary pre-existing disk file, then any sequence of `load`, `add_category`
and `add_keyword`. -/
inductive CMReach : CMState → Prop where
  | init : ∀ f, CMReach (cmInit f)
  | load : ∀ s, CMReach s → CMReach (cmLoad s)
  | addCat : ∀ s n, CMReach s → CMReach (addCategory s n).1
  | addKw : ∀ s c k, CMReach s → CMReach (addKeyword s c k).1

/-- Reachability when every snapshot that `load` successfully parses contains
the reserved key (for instance because the file was only ever written by
`save`): same steps as `CMReach` with that side condition on `load`. -/
inductive CMReachSafe : CMState → Prop where
  | init : ∀ f, CMReachSafe (cmInit f)
  | load : ∀ s, CMReachSafe s →
      (∀ snap, s.file = some (some snap) → hasKey snap "Uncategorized" = true) →
      CMReachSafe (cmLoad s)
  | addCat : ∀ s n, CMReachSafe s → CMReachSafe (addCategory s n).1
  | addKw : ∀ s c k, CMReachSafe s → CMReachSafe (addKeyword s c k).1

/-! ## Budget reconciliation (`views/budget.py`) -/

/-- One already-categorized transaction row as `_compute_actuals` uses it:
its `Category`, its posting month (`_ym`, i.e. `Posting Date` parsed and
formatted `YYYY-MM`; `none` when `pd.to_datetime(..., errors="coerce")`
yields `NaT`, which never equals a month key), and its signed `Amount`. -/
structure TxnRow where
  category : String
  month : Option String
  amount : ℚ
  deriving Repr, DecidableEq

/-- A transaction source table (`debits_df` / `credits_df`): its rows and
whether it has a `Posting Date` column (when it does not, no `_ym` column is
built and the month mask is the scalar `False`, selecting nothing). -/
structure TxTable where
  hasPostingDate : Bool
  rows : List TxnRow
  deriving Repr, DecidableEq

/-- One row of the month's plan grid (`plan_df`): `major`, `category`,
`planned`. -/
structure PlanRow where
  major : String
  category : String
  planned : ℚ
  deriving Repr, DecidableEq

/-- One row of a reconciliation table: `Category`, `Planned`, `Actual`,
`Result`. -/
structure RecRow where
  category : String
  planned : ℚ
  actual : ℚ
  result : ℚ
  deriving Repr, DecidableEq

/-- The three major groups of `MAJORS`. -/
inductive Major where
  | expenses
  | income
  | investments
  deriving Repr, DecidableEq

/-- The string each major carries in plan rows. -/
def majorName : Major → String
  | .expenses => "Expenses"
  | .income => "Income"
  | .investments => "Investments"

/-- Income reads `credits_df`; Expenses and Investments read `debits_df`. -/
def sourceTable (debits credits : TxTable) : Major → TxTable
  | .income => credits
  | _ => debits

/-- Which branch of `_compute_actuals` a major takes. -/
def isIncomeMajor : Major → Bool
  | .income => true
  | _ => false

/-- `Series.abs()` on one amount. -/
def ratAbs (q : ℚ) : ℚ := if q < 0 then -q else q

/-- The mask `(base.get("_ym") == month_key) & (base["Category"].isin(categories))`
applied to the source table: without a `Posting Date` column the `_ym` lookup
yields `None` and the mask is identically false; otherwise keep the rows of
the requested month whose category is among the plan's categories. -/
def monthRows (monthKey : String) (tbl : TxTable) (cats : List String) : List TxnRow :=
  if tbl.hasPostingDate then
    tbl.rows.filter (fun r => r.month = some monthKey ∧ r.category ∈ cats)
  else []

/-- The group keys of `groupby("Category")` over the selected rows (pandas
sorts them; only the key-to-sum mapping matters to the later merge, so
first-occurrence order is used here). -/
def groupKeys (rows : List TxnRow) : List String := (rows.map (·.category)).dedup

/-- `groupby("Category")[amt].sum().reset_index()`: per group key, the sum of
the measured value over the group's rows. -/
def aggActual (f : TxnRow → ℚ) (rows : List TxnRow) : List (String × ℚ) :=
  (groupKeys rows).map (fun c => (c, ((rows.filter (fun r => r.category = c)).map f).sum))

/-- The left merge on `Category` followed by `fillna(0.0)`: a plan category
takes its aggregated sum, or 0 when no group matched. -/
def mergeActual (agg : List (String × ℚ)) (c : String) : ℚ := (agg.lookup c).getD 0

/-- The per-major body of `_compute_actuals`: filter the plan to the major;
an empty subset yields the empty table; otherwise aggregate the month's
matching source rows (signed amounts for Income, absolute amounts
otherwise), left-join plan rows against the aggregate, derive `Result` by
the major's sign convention, and prepend the synthetic Totals row. -/
def computeMajorRows (monthKey : String) (plan : List PlanRow) (tbl : TxTable)
    (income : Bool) (name : String) : List RecRow :=
  let subset := plan.filter (fun p => p.major = name)
  if subset.isEmpty then []
  else
    let cats := subset.map (·.category)
    let f : TxnRow → ℚ := fun r => if income then r.amount else ratAbs r.amount
    let agg := aggActual f (monthRows monthKey tbl cats)
    let body := subset.map (fun p =>
      let actual := mergeActual agg p.category
      { category := p.category, planned := p.planned, actual := actual,
        result := if income then actual - p.planned else p.planned - actual : RecRow })
    { category := "Totals", planned := (body.map (·.planned)).sum,
      actual := (body.map (·.actual)).sum,
      result := (body.map (·.result)).sum : RecRow } :: body

/-- `BudgetPage._compute_actuals`: the dict of per-major reconciliation
tables, as a function from the major. -/
def computeActuals (monthKey : String) (plan : List PlanRow)
    (debits credits : TxTable) (maj : Major) : List RecRow :=
  computeMajorRows monthKey plan (sourceTable debits credits maj)
    (isIncomeMajor maj) (majorName maj)

/-- Stated from the spec's words, for comparison with `cmLoad`: the
reserved-key default-filling rule, under which a snapshot lacking
`"Uncategorized"` comes back with it mapped to the empty keyword list. -/
def specFillDefault (m : CategoryMap) : CategoryMap :=
  if hasKey m "Uncategorized" then m else m ++ [("Uncategorized", [])]

/-- A transaction source exactly as `_compute_actuals` fetches it:
`st.session_state.get("debits_df", pd.DataFrame())`.  `none` is the fallback
`pd.DataFrame()` taken when the Home page never stored the table — an empty
frame with no columns at all, in particular no `Category` or `Amount`;
`some t` is a stored table, which the Home pipeline always produces with the
full transaction schema (`Category` and `Amount` present, `hasPostingDate`
recording whether `Posting Date` is among the columns). -/
abbrev SourceFrame := Option TxTable

/-- Income reads the credits frame; Expenses and Investments the debits. -/
def sourceFrame (debits credits : SourceFrame) : Major → SourceFrame
  | .income => credits
  | _ => debits

/-- One major's slice of `_compute_actuals` including its failure behavior.
With an empty plan subset the empty table is returned before any column
access.  Otherwise the code evaluates `base["Category"].isin(categories)`:
on the column-less fallback frame this raises `KeyError: 'Category'` — the
`if base.empty:` branch just above it only binds a variable that is never
used and does not skip the aggregation — and the raise aborts
`_compute_actuals`.  On a stored table the computation proceeds as
`computeMajorRows`. -/
def computeMajorRowsChecked (monthKey : String) (plan : List PlanRow)
    (src : SourceFrame) (income : Bool) (name : String) :
    Except String (List RecRow) :=
  let subset := plan.filter (fun p => p.major = name)
  if subset.isEmpty then .ok []
  else
    match src with
    | none => .error "KeyError: 'Category'"
    | some tbl => .ok (computeMajorRows monthKey plan tbl income name)

/-- `BudgetPage._compute_actuals` over the session-state sources, per major;
a raised `KeyError` in any major aborts the whole dict construction, so the
per-major result is the value the aborted computation reached for that
major. -/
def computeActualsChecked (monthKey : String) (plan : List PlanRow)
    (debits credits : SourceFrame) (maj : Major) : Except String (List RecRow) :=
  computeMajorRowsChecked monthKey plan (sourceFrame debits credits maj)
    (isIncomeMajor maj) (majorName maj)

/-! ## Helper lemmas -/

lemma assignCategory_foldl (cats : CategoryMap) (desc : String) (a : String) :
    cats.foldl
      (fun acc ckw =>
        if ckw.1 = "Uncategorized" ∨ ckw.2 = [] then acc
        else if keywordsMatch ckw.2 desc then ckw.1 else acc) a
    = ((matchingItems cats desc).getLast?.map Prod.fst).getD a := by
  induction cats generalizing a with
  | nil => simp [matchingItems]
  | cons c cs ih =>
    rw [List.foldl_cons, ih]
    by_cases hP : c.1 ≠ "Uncategorized" ∧ c.2 ≠ [] ∧ keywordsMatch c.2 desc = true
    · have hstep :
          (if c.1 = "Uncategorized" ∨ c.2 = [] then a
           else if keywordsMatch c.2 desc then c.1 else a) = c.1 := by
        rw [if_neg (by tauto), if_pos hP.2.2]
      have hfil : matchingItems (c :: cs) desc = c :: matchingItems cs desc := by
        simp only [matchingItems, List.filter_cons]
        rw [if_pos (by simpa using hP)]
      rw [hstep, hfil]
      cases hM : matchingItems cs desc with
      | nil => simp
      | cons x xs =>
        rw [List.getLast?_cons_cons]
        cases hy : (x :: xs).getLast? with
        | none => simp at hy
        | some y => simp
    · have hstep :
          (if c.1 = "Uncategorized" ∨ c.2 = [] then a
           else if keywordsMatch c.2 desc then c.1 else a) = a := by
        by_cases h1 : c.1 = "Uncategorized" ∨ c.2 = []
        · rw [if_pos h1]
        · rw [if_neg h1, if_neg (by push_neg at hP h1; exact by simp [hP h1.1 h1.2])]
      have hfil : matchingItems (c :: cs) desc = matchingItems cs desc := by
        simp only [matchingItems, List.filter_cons]
        rw [if_neg (by simpa using hP)]
      rw [hstep, hfil]

lemma assignCategory_eq_getLast (cats : CategoryMap) (desc : String) :
    assignCategory cats desc =
      ((matchingItems cats desc).getLast?.map Prod.fst).getD "Uncategorized" :=
  assignCategory_foldl cats desc "Uncategorized"

lemma hasKey_of_mem {cats : CategoryMap} {e : String × List String} (h : e ∈ cats) :
    hasKey cats e.1 = true := by
  simp only [hasKey, List.any_eq_true]
  exact ⟨e, h, by simp⟩

lemma toNat_lowerChar (c : Char) :
    (lowerChar c).toNat =
      if 65 ≤ c.toNat ∧ c.toNat ≤ 90 then c.toNat + 32 else c.toNat := by
  unfold lowerChar
  split
  · next h =>
    have hv : (c.toNat + 32).isValidChar := Or.inl (by omega)
    unfold Char.ofNat
    rw [dif_pos hv]
    rfl
  · rfl

lemma lowerChar_not_upper (c : Char) :
    ¬ (65 ≤ (lowerChar c).toNat ∧ (lowerChar c).toNat ≤ 90) := by
  rw [toNat_lowerChar]
  split
  · next h => omega
  · next h => omega

lemma strContains_no_upper {desc kw : String} {c : Char}
    (hc : c ∈ kw.data) (hupper : 65 ≤ c.toNat ∧ c.toNat ≤ 90) :
    strContains (lowerStr desc) kw = false := by
  by_contra h
  rw [Bool.not_eq_false, strContains, List.any_eq_true] at h
  obtain ⟨t, ht, hpre⟩ := h
  rw [List.isPrefixOf_iff_prefix] at hpre
  rw [List.mem_tails] at ht
  have hmem : c ∈ (lowerStr desc).data := ht.subset (hpre.subset hc)
  simp only [lowerStr, List.mem_map] at hmem
  obtain ⟨c₀, _, hc₀⟩ := hmem
  exact lowerChar_not_upper c₀ (hc₀ ▸ hupper)

/-! ## Claims about `categorize_transactions` -/

/-- C1: `classify` follows a last-match-wins policy: whenever the keyword
patterns of two or more non-default categories match a row's description, the
row's resulting category is the matching category iterated last in the map's
insertion/storage order. -/
theorem classify_last_match_wins {α : Type} (cats : CategoryMap) (rows : List (Row α))
    (i : ℕ) (r : Row α) (hrow : rows[i]? = some r)
    (htwo : 2 ≤ (matchingItems cats r.description).length) :
    ∃ p, (matchingItems cats r.description).getLast? = some p ∧
      ((categorizeTransactions cats rows)[i]?).map Row.category = some p.1 := by
  obtain ⟨p, hp⟩ : ∃ p, (matchingItems cats r.description).getLast? = some p := by
    cases hM : matchingItems cats r.description with
    | nil => rw [hM] at htwo; simp at htwo
    | cons x xs =>
      cases hy : (x :: xs).getLast? with
      | none => simp at hy
      | some y => exact ⟨y, rfl⟩
  refine ⟨p, hp, ?_⟩
  rw [categorizeTransactions, List.getElem?_map, hrow]
  show some (assignCategory cats r.description) = some p.1
  rw [assignCategory_eq_getLast, hp]
  rfl

/-- Witness for C1: with categories `B` then `A` both matching, the row gets
`A`, the one iterated last. -/
theorem classify_last_match_wins_witness :
    ([⟨"x marks", "", ()⟩] : List (Row Unit))[0]? = some ⟨"x marks", "", ()⟩ ∧
    2 ≤ (matchingItems [("Uncategorized", []), ("B", ["x"]), ("A", ["x"])] "x marks").length ∧
    ∃ p, (matchingItems [("Uncategorized", []), ("B", ["x"]), ("A", ["x"])]
        "x marks").getLast? = some p ∧
      ((categorizeTransactions [("Uncategorized", []), ("B", ["x"]), ("A", ["x"])]
          ([⟨"x marks", "", ()⟩] : List (Row Unit)))[0]?).map Row.category = some p.1 :=
  ⟨by decide, by decide,
    classify_last_match_wins [("Uncategorized", []), ("B", ["x"]), ("A", ["x"])]
      [⟨"x marks", "", ()⟩] 0 ⟨"x marks", "", ()⟩ (by decide) (by decide)⟩

/-- C4 counterexample: the stored keyword `"WALMART"` is contained in the
description `"WALMART"` up to letter case, yet its pattern does not match:
the code lower-cases the description only and uses the keyword as stored, so
the row stays `"Uncategorized"`. -/
theorem classify_case_insensitive_cex :
    strContains (lowerStr "WALMART") (lowerStr "WALMART") = true ∧
    keywordsMatch ["WALMART"] "WALMART" = false ∧
    categorizeTransactions [("Uncategorized", []), ("Shopping", ["WALMART"])]
        ([⟨"WALMART", "", ()⟩] : List (Row Unit)) =
      [⟨"WALMART", "Uncategorized", ()⟩] :=
  ⟨by decide, by decide, by decide⟩

/-- C4 (amended): matching is case-insensitive in the description only — the
description is lower-cased and the keyword used exactly as stored.  A stored
keyword matches every description whose lower-cased form contains it
verbatim, and a keyword containing an upper-case ASCII letter matches no
description at all. -/
theorem classify_keyword_match_amended :
    (∀ (kws : List String) (kw desc : String), kw ∈ kws →
        strContains (lowerStr desc) kw = true → keywordsMatch kws desc = true) ∧
    (∀ (kw desc : String) (c : Char), c ∈ kw.data → 65 ≤ c.toNat ∧ c.toNat ≤ 90 →
        strContains (lowerStr desc) kw = false) := by
  constructor
  · intro kws kw desc hmem hc
    rw [keywordsMatch, List.any_eq_true]
    exact ⟨kw, hmem, hc⟩
  · intro kw desc c hc hup
    exact strContains_no_upper hc hup

/-- Witness for C4 (amended): a lower-case stored keyword matches an
upper-case description; an upper-case stored keyword matches nothing. -/
theorem classify_keyword_match_amended_witness :
    keywordsMatch ["walmart"] "WALMART STORE" = true ∧
    strContains (lowerStr "WALMART STORE") "WALMART" = false :=
  ⟨classify_keyword_match_amended.1 ["walmart"] "walmart" "WALMART STORE"
      (by decide) (by decide),
    classify_keyword_match_amended.2 "WALMART" "WALMART STORE" 'W'
      (by decide) (by decide)⟩

/-- C9: `classify` is idempotent — classifying an already-classified table
again with the unchanged map yields identical categories. -/
theorem classify_idempotent {α : Type} (cats : CategoryMap) (rows : List (Row α)) :
    (categorizeTransactions cats (categorizeTransactions cats rows)).map Row.category =
      (categorizeTransactions cats rows).map Row.category := by
  unfold categorizeTransactions
  rw [List.map_map, List.map_map, List.map_map]
  rfl

/-- Looking a key up after `add_keyword`'s dict update: the updated category's
list gains the keyword at the end; every other key is unchanged. -/
lemma lookup_map_update (m : CategoryMap) (cat kw c : String) :
    ((m.map (fun e => if e.1 = cat then (e.1, e.2 ++ [kw]) else e)).lookup c) =
      (m.lookup c).map (fun l => if c = cat then l ++ [kw] else l) := by
  induction m with
  | nil => rfl
  | cons e es ih =>
    obtain ⟨k₀, v₀⟩ := e
    rw [List.map_cons]
    by_cases hec : (k₀, v₀).1 = cat
    · rw [if_pos hec]
      by_cases hce : c = k₀
      · have hb : (c == k₀) = true := by simpa using hce
        simp only [List.lookup, hb]
        simp [hce.trans hec]
      · have hb : (c == k₀) = false := by simpa using hce
        simp only [List.lookup, hb]
        exact ih
    · rw [if_neg hec]
      by_cases hce : c = k₀
      · have hb : (c == k₀) = true := by simpa using hce
        simp only [List.lookup, hb]
        have hnc : ¬ c = cat := fun h => hec (hce.symm.trans h)
        simp [hnc]
      · have hb : (c == k₀) = false := by simpa using hce
        simp only [List.lookup, hb]
        exact ih

/-- `in self.categories` agrees with dict lookup succeeding. -/
lemma hasKey_eq_isSome (m : CategoryMap) (k : String) :
    hasKey m k = (m.lookup k).isSome := by
  induction m with
  | nil => rfl
  | cons e es ih =>
    obtain ⟨k₀, v₀⟩ := e
    by_cases h : k = k₀
    · have hb : (k == k₀) = true := by simpa using h
      have hd : decide (k₀ = k) = true := by simpa using h.symm
      simp [hasKey, List.lookup, hb, hd]
    · have hb : (k == k₀) = false := by simpa using h
      have hd : decide (k₀ = k) = false := by
        simpa using fun hh => h hh.symm
      simp only [hasKey, List.any_cons, hd, Bool.false_or, List.lookup, hb]
      exact ih

/-- The dict update of `add_keyword` does not change the key set. -/
lemma hasKey_map_update (m : CategoryMap) (cat kw k : String) :
    hasKey (m.map (fun e => if e.1 = cat then (e.1, e.2 ++ [kw]) else e)) k =
      hasKey m k := by
  unfold hasKey
  rw [List.any_map]
  congr 1
  funext e
  by_cases h : e.1 = cat <;> simp [h, Function.comp]

/-- The key set of `add_category`'s insertion. -/
lemma hasKey_append (m₁ m₂ : CategoryMap) (k : String) :
    hasKey (m₁ ++ m₂) k = (hasKey m₁ k || hasKey m₂ k) := by
  unfold hasKey
  exact List.any_append

/-! ## Claims about persistence and the category-map lifecycle -/

/-- C5 counterexample: saving a map that lacks the reserved key and loading it
back returns it verbatim — `load` does not fill `"Uncategorized"` in, so the
round-trip differs from the spec's default-filling rule at this input. -/
theorem save_load_roundtrip_cex :
    (cmLoad (cmSave ⟨[("Food", ["a"])], none⟩)).categories = [("Food", ["a"])] ∧
    ([("Food", ["a"])] : CategoryMap).lookup "Uncategorized" = none ∧
    (cmLoad (cmSave ⟨[("Food", ["a"])], none⟩)).categories ≠
      specFillDefault [("Food", ["a"])] :=
  ⟨by decide, by decide, by decide⟩

/-- C5 (amended): `save(m)` followed by `load()` yields exactly `m` — the JSON
snapshot round-trips verbatim, and `load` performs no reserved-key
default-filling, so a map lacking `"Uncategorized"` comes back still lacking
it. -/
theorem save_load_roundtrip (m : CategoryMap) (f : Option (Option CategoryMap)) :
    (cmLoad (cmSave ⟨m, f⟩)).categories = m := rfl

/-- C7: `add_keyword` returns `False` exactly when the category is unknown,
the trimmed keyword is empty, or the trimmed keyword is already present in
the category's stored list (case-sensitive exact match); on `False` the state
(map and file) is untouched; on `True` the trimmed keyword is appended to
that category's list, other categories are unchanged, and the new map is
persisted. -/
theorem add_keyword_spec (s : CMState) (cat kw : String) :
    ((addKeyword s cat kw).2 = false ↔
      hasKey s.categories cat = false ∨ trimStr kw = "" ∨
        trimStr kw ∈ (s.categories.lookup cat).getD []) ∧
    ((addKeyword s cat kw).2 = false → (addKeyword s cat kw).1 = s) ∧
    ((addKeyword s cat kw).2 = true →
      (addKeyword s cat kw).1.categories.lookup cat =
          some ((s.categories.lookup cat).getD [] ++ [trimStr kw]) ∧
        (∀ c, c ≠ cat → (addKeyword s cat kw).1.categories.lookup c =
          s.categories.lookup c) ∧
        (addKeyword s cat kw).1.file = some (some (addKeyword s cat kw).1.categories)) := by
  unfold addKeyword
  by_cases h1 : ¬ hasKey s.categories cat = true ∨ trimStr kw = ""
  · rw [if_pos h1]
    refine ⟨⟨fun _ => ?_, fun _ => rfl⟩, fun _ => rfl, fun h => by simp at h⟩
    rcases h1 with h1 | h1
    · exact Or.inl (by simpa using h1)
    · exact Or.inr (Or.inl h1)
  · rw [if_neg h1]
    push_neg at h1
    by_cases h2 : trimStr kw ∈ (s.categories.lookup cat).getD []
    · rw [if_pos h2]
      exact ⟨⟨fun _ => Or.inr (Or.inr h2), fun _ => rfl⟩, fun _ => rfl,
        fun h => by simp at h⟩
    · rw [if_neg h2]
      refine ⟨⟨fun h => by simp at h, fun h => ?_⟩, fun h => by simp at h,
        fun _ => ⟨?_, fun c hc => ?_, rfl⟩⟩
      · rcases h with h | h | h
        · rw [h1.1] at h; simp at h
        · exact absurd h h1.2
        · exact absurd h h2
      · obtain ⟨l, hl⟩ : ∃ l, s.categories.lookup cat = some l := by
          have := hasKey_eq_isSome s.categories cat
          rw [h1.1] at this
          cases hl : s.categories.lookup cat with
          | none => rw [hl] at this; simp at this
          | some l => exact ⟨l, rfl⟩
        show ((s.categories.map _).lookup cat) = _
        rw [lookup_map_update, hl]
        simp
      · show ((s.categories.map _).lookup c) = _
        rw [lookup_map_update]
        cases s.categories.lookup c <;> simp [hc]

/-- Witness for C7: appending a fresh keyword (trimmed) to a known category
succeeds and lands at the end of that category's stored list. -/
theorem add_keyword_spec_witness :
    (addKeyword ⟨[("Uncategorized", []), ("Food", ["a"])], none⟩ "Food" " b ").2 = true ∧
    (addKeyword ⟨[("Uncategorized", []), ("Food", ["a"])], none⟩
        "Food" " b ").1.categories.lookup "Food" =
      some ((([("Uncategorized", []), ("Food", ["a"])] : CategoryMap).lookup "Food").getD []
        ++ [trimStr " b "]) :=
  ⟨by decide,
    ((add_keyword_spec ⟨[("Uncategorized", []), ("Food", ["a"])], none⟩
      "Food" " b ").2.2 (by decide)).1⟩

/-- C8 counterexample: loading a well-formed external snapshot that lacks the
reserved key is a reachable step, and it leaves a state whose map has no
`"Uncategorized"` key. -/
theorem uncategorized_invariant_cex :
    CMReach (cmLoad (cmInit (some (some [("Food", [])])))) ∧
    hasKey (cmLoad (cmInit (some (some [("Food", [])])))).categories
      "Uncategorized" = false :=
  ⟨CMReach.load _ (CMReach.init _), by decide⟩

/-- C8 (amended): provided every snapshot `load` successfully parses contains
the reserved key (as every snapshot written by `save` from such a state
does), `"Uncategorized"` is a key of the map in every reachable state, and
every row of a classified table carries a category that is a key of the
current map. -/
theorem uncategorized_invariant_amended (s : CMState) (hs : CMReachSafe s) :
    hasKey s.categories "Uncategorized" = true ∧
    ∀ (α : Type) (rows : List (Row α)) (r : Row α),
      r ∈ categorizeTransactions s.categories rows →
      hasKey s.categories r.category = true := by
  have hinv : hasKey s.categories "Uncategorized" = true := by
    induction hs with
    | init f => rfl
    | load s hs hcond ih =>
      unfold cmLoad
      cases hf : s.file with
      | none => exact ih
      | some o =>
        cases o with
        | none => rfl
        | some snap => exact hcond snap hf
    | addCat s n hs ih =>
      unfold addCategory
      by_cases h : trimStr n = "" ∨ hasKey s.categories (trimStr n) = true
      · rw [if_pos h]; exact ih
      · rw [if_neg h]
        show hasKey (s.categories ++ [(trimStr n, [])]) "Uncategorized" = true
        rw [hasKey_append, ih]
        rfl
    | addKw s c k hs ih =>
      unfold addKeyword
      by_cases h1 : ¬ hasKey s.categories c = true ∨ trimStr k = ""
      · rw [if_pos h1]; exact ih
      · rw [if_neg h1]
        by_cases h2 : trimStr k ∈ (s.categories.lookup c).getD []
        · rw [if_pos h2]; exact ih
        · rw [if_neg h2]
          show hasKey (s.categories.map _) "Uncategorized" = true
          rw [hasKey_map_update]
          exact ih
  refine ⟨hinv, fun α rows r hr => ?_⟩
  obtain ⟨r₀, _, hr₀⟩ := List.mem_map.mp hr
  rw [← hr₀]
  show hasKey s.categories (assignCategory s.categories r₀.description) = true
  rw [assignCategory_eq_getLast]
  cases hM : (matchingItems s.categories r₀.description).getLast? with
  | none => simpa using hinv
  | some p =>
    have hmem : p ∈ matchingItems s.categories r₀.description :=
      List.mem_of_mem_getLast? (Option.mem_def.mpr hM)
    simpa using hasKey_of_mem (List.mem_of_mem_filter hmem)

/-- Witness for C8 (amended): after adding a category to a fresh manager, the
reserved key is present and a freshly classified row's category is a key of
the map. -/
theorem uncategorized_invariant_amended_witness :
    hasKey (addCategory (cmInit none) "Food").1.categories "Uncategorized" = true ∧
    hasKey (addCategory (cmInit none) "Food").1.categories
      (⟨"x", "Uncategorized", ()⟩ : Row Unit).category = true :=
  ⟨(uncategorized_invariant_amended (addCategory (cmInit none) "Food").1
      (CMReachSafe.addCat (cmInit none) "Food" (CMReachSafe.init none))).1,
    (uncategorized_invariant_amended (addCategory (cmInit none) "Food").1
      (CMReachSafe.addCat (cmInit none) "Food" (CMReachSafe.init none))).2
      Unit [⟨"x", "", ()⟩] ⟨"x", "Uncategorized", ()⟩ (by decide)⟩

/-- C10: `classify` does not mutate its input (it operates on a copy and
returns a new table): the output has the same number of rows in the same
order, and every column other than `Category` is carried through unchanged. -/
theorem classify_frame {α : Type} (cats : CategoryMap) (rows : List (Row α)) :
    (categorizeTransactions cats rows).length = rows.length ∧
    (categorizeTransactions cats rows).map (fun r => (r.description, r.rest)) =
      rows.map (fun r => (r.description, r.rest)) := by
  refine ⟨by simp [categorizeTransactions], ?_⟩
  unfold categorizeTransactions
  rw [List.map_map]
  rfl

/-! ## Lemmas for the reconciliation pipeline -/

/-- Looking up a key in an association list whose entries are built from a
key list by one value function. -/
lemma lookup_map_keys (g : String → ℚ) (keys : List String) (c : String) :
    ((keys.map (fun k => (k, g k))).lookup c) =
      if c ∈ keys then some (g c) else none := by
  induction keys with
  | nil => rfl
  | cons k ks ih =>
    rw [List.map_cons]
    by_cases h : c = k
    · subst h
      simp [List.lookup]
    · have hb : (c == k) = false := by simpa using h
      simp only [List.lookup, hb, ih]
      by_cases hm : c ∈ ks
      · rw [if_pos hm, if_pos (List.mem_cons_of_mem k hm)]
      · rw [if_neg hm, if_neg (by simp [List.mem_cons, h, hm])]

/-- The `groupby`-then-left-merge-then-`fillna(0)` pipeline computes, for any
category, the plain sum of the measured value over the rows of that
category — 0 when there are none. -/
lemma mergeActual_aggActual (f : TxnRow → ℚ) (rows : List TxnRow) (c : String) :
    mergeActual (aggActual f rows) c =
      ((rows.filter (fun r => r.category = c)).map f).sum := by
  unfold mergeActual aggActual
  rw [lookup_map_keys]
  by_cases h : c ∈ groupKeys rows
  · rw [if_pos h]
    rfl
  · rw [if_neg h]
    have hnil : rows.filter (fun r => r.category = c) = [] := by
      rw [List.filter_eq_nil_iff]
      intro r hr hc
      apply h
      unfold groupKeys
      rw [List.mem_dedup]
      exact List.mem_map.mpr ⟨r, hr, by simpa using hc⟩
    rw [hnil]
    rfl

/-- Restricting the month-and-plan-categories selection to one plan category
collapses the two filters: the rows of the requested month carrying exactly
that category (none when the source lacks a posting-date column). -/
lemma monthRows_filter_category (monthKey : String) (tbl : TxTable)
    (cats : List String) (c : String) (hc : c ∈ cats) :
    (monthRows monthKey tbl cats).filter (fun r => r.category = c) =
      if tbl.hasPostingDate then
        tbl.rows.filter (fun r => r.month = some monthKey ∧ r.category = c)
      else [] := by
  unfold monthRows
  split
  · rw [List.filter_filter]
    apply List.filter_congr
    intro r _
    by_cases h1 : r.category = c
    · simp [h1, hc]
    · simp [h1]
  · rfl

/-- With no source rows or no posting-date column, the selection is empty. -/
lemma monthRows_eq_nil (monthKey : String) (tbl : TxTable) (cats : List String)
    (h : tbl.rows = [] ∨ tbl.hasPostingDate = false) :
    monthRows monthKey tbl cats = [] := by
  unfold monthRows
  rcases h with h | h
  · rw [h]
    split <;> rfl
  · rw [h]
    rfl

/-! ## Claims about `_compute_actuals` -/

/-- C2: per plan category of a major, `Actual` is the sum of the raw signed
amounts of the month's matching credit rows for Income and the sum of the
absolute amounts of the month's matching debit rows for Expenses and
Investments, and `Result` is `Actual - Planned` for Income and
`Planned - Actual` for Expenses and Investments. -/
theorem reconcile_actual_result (monthKey : String) (plan : List PlanRow)
    (debits credits : TxTable) (maj : Major) :
    (computeActuals monthKey plan debits credits maj).tail =
      (plan.filter (fun p => p.major = majorName maj)).map (fun p =>
        let actual :=
          ((if (sourceTable debits credits maj).hasPostingDate then
              (sourceTable debits credits maj).rows.filter
                (fun r => r.month = some monthKey ∧ r.category = p.category)
            else []).map
            (fun r => if isIncomeMajor maj then r.amount else ratAbs r.amount)).sum
        { category := p.category, planned := p.planned, actual := actual,
          result := if isIncomeMajor maj then actual - p.planned
            else p.planned - actual : RecRow }) := by
  unfold computeActuals computeMajorRows
  by_cases hsub : (plan.filter (fun p => p.major = majorName maj)).isEmpty
  · rw [if_pos hsub]
    rw [List.isEmpty_iff.mp hsub]
    rfl
  · rw [if_neg hsub]
    rw [List.tail_cons]
    apply List.map_congr_left
    intro p hp
    have hc : p.category ∈
        (plan.filter (fun q => q.major = majorName maj)).map PlanRow.category :=
      List.mem_map.mpr ⟨p, hp, rfl⟩
    rw [mergeActual_aggActual, monthRows_filter_category _ _ _ _ hc]

/-- C3: whenever the plan has entries for a major, the returned table starts
with a synthetic Totals row whose Planned, Actual and Result are the sums of
the corresponding column over all the following (non-total) rows. -/
theorem reconcile_totals_row (monthKey : String) (plan : List PlanRow)
    (debits credits : TxTable) (maj : Major)
    (h : plan.filter (fun p => p.major = majorName maj) ≠ []) :
    ∃ t body, computeActuals monthKey plan debits credits maj = t :: body ∧
      t.category = "Totals" ∧
      t.planned = (body.map RecRow.planned).sum ∧
      t.actual = (body.map RecRow.actual).sum ∧
      t.result = (body.map RecRow.result).sum := by
  unfold computeActuals computeMajorRows
  rw [if_neg (by simpa [List.isEmpty_iff] using h)]
  exact ⟨_, _, rfl, rfl, rfl, rfl, rfl⟩

/-- Witness for C3 at a one-entry Expenses plan over empty tables. -/
theorem reconcile_totals_row_witness :
    ∃ t body,
      computeActuals "2024-03" [⟨"Expenses", "Groceries", 300⟩]
          ⟨true, []⟩ ⟨true, []⟩ Major.expenses = t :: body ∧
      t.category = "Totals" ∧
      t.planned = (body.map RecRow.planned).sum ∧
      t.actual = (body.map RecRow.actual).sum ∧
      t.result = (body.map RecRow.result).sum :=
  reconcile_totals_row "2024-03" [⟨"Expenses", "Groceries", 300⟩]
    ⟨true, []⟩ ⟨true, []⟩ Major.expenses (by decide)

/-- Every row `_compute_actuals` builds from an empty selection — plan rows
and the Totals row alike — carries `Actual = 0`. -/
lemma computeMajorRows_actual_zero (monthKey : String) (plan : List PlanRow)
    (tbl : TxTable) (income : Bool) (name : String)
    (h : tbl.rows = [] ∨ tbl.hasPostingDate = false) :
    ∀ row ∈ computeMajorRows monthKey plan tbl income name, row.actual = 0 := by
  intro row hrow
  unfold computeMajorRows at hrow
  simp only [monthRows_eq_nil _ _ _ h] at hrow
  have hzero : ∀ c, mergeActual
      (aggActual (fun r => if income then r.amount else ratAbs r.amount) []) c = 0 :=
    fun c => rfl
  by_cases hsub : (plan.filter (fun p => p.major = name)).isEmpty
  · rw [if_pos hsub] at hrow
    simp at hrow
  · rw [if_neg hsub] at hrow
    rcases List.mem_cons.mp hrow with hrow | hrow
    · subst hrow
      apply List.sum_eq_zero
      intro x hx
      rw [List.map_map] at hx
      obtain ⟨p, _, hp⟩ := List.mem_map.mp hx
      rw [← hp]
      exact hzero p.category
    · obtain ⟨p, _, hp⟩ := List.mem_map.mp hrow
      rw [← hp, hzero]

/-- On a stored source table with no rows or no posting-date column the
selection is empty and every returned row carries `Actual = 0`: the
zero-actual half of the empty-source edge case, which holds only once the
source frame has its columns. -/
lemma reconcile_actual_zero_on_stored_empty (monthKey : String)
    (plan : List PlanRow) (debits credits : TxTable) (maj : Major)
    (h : (sourceTable debits credits maj).rows = [] ∨
      (sourceTable debits credits maj).hasPostingDate = false) :
    ∀ row ∈ computeActuals monthKey plan debits credits maj, row.actual = 0 := by
  intro row hrow
  exact computeMajorRows_actual_zero monthKey plan (sourceTable debits credits maj)
    (isIncomeMajor maj) (majorName maj) h row hrow

/-- On a stored table the checked computation never raises and agrees with
the total model. -/
lemma computeMajorRowsChecked_some (monthKey : String) (plan : List PlanRow)
    (tbl : TxTable) (income : Bool) (name : String) :
    computeMajorRowsChecked monthKey plan (some tbl) income name =
      Except.ok (computeMajorRows monthKey plan tbl income name) := by
  simp only [computeMajorRowsChecked, computeMajorRows]
  split <;> rfl

/-- C6: the code fails on the claim's empty-source edge case.  With a
non-empty Expenses plan and the debits source being the session-state
fallback frame — the empty, column-less `pd.DataFrame()` present when
nothing was uploaded — the aggregation reaches `base["Category"]` and
raises `KeyError` instead of giving every plan category `Actual = 0`. -/
theorem reconcile_empty_source_bug :
    computeActualsChecked "2024-03"
        [{ major := "Expenses", category := "Groceries", planned := 300 }]
        none (some ⟨true, []⟩) Major.expenses =
      Except.error "KeyError: 'Category'" := rfl

end FinTrack
